import Mathlib

/-!
Verification of the humumls RRF table creator (src/humumls/tablecreator.py).

The Python module streams the pipe-delimited UMLS RRF files (MRCONSO, MRDEF,
MRREL, MRSTY) and builds three aggregate record sets (concepts, terms,
strings).  This file gives a shallow embedding of that code: a file is a list
of raw lines, each pass is a fold over the lines, the Python dictionaries
keyed by CUI/LUI/SUI become association lists of records, and every Python
runtime error that the code can raise (IndexError from a short row, KeyError
from the relation table, UnicodeDecodeError from the byte truncation,
NameError from the line-counting loop over an empty file) becomes an
explicit error value.
-/

namespace Humumls

/-- Python runtime errors the translated code can raise. -/
inductive Err where
  | indexError : Err
  | keyError : Err
  | unicodeDecodeError : Err
  | nameError : Err
deriving DecidableEq, Repr

/-- Word characters for the regex class used by PUNCT = re.compile("\x5cW"):
alphanumerics and the underscore (modelled on the ASCII fragment). -/
def isWordChar (c : Char) : Bool :=
  c.isAlphanum || c == '_'

/-- Split a character list into the chunks between separator characters
(chunks may be empty), as Python str.split(sep) does on each field of the
separator class.  chunksBy p "a||b" = ["a", "", "b"]. -/
def chunksBy (p : Char → Bool) : List Char → List (List Char)
  | [] => [[]]
  | c :: cs =>
    if p c then [] :: chunksBy p cs
    else
      match chunksBy p cs with
      | w :: ws => (c :: w) :: ws
      | [] => [[c]]

/-- Python str.split() with no argument: split on whitespace runs and drop
empty chunks. -/
def pySplit (l : List Char) : List (List Char) :=
  (chunksBy (fun c => c.isWhitespace) l).filter (fun w => !w.isEmpty)

/-- Python " ".join(ws). -/
def joinSp : List (List Char) → List Char
  | [] => []
  | [w] => w
  | w :: w2 :: ws => w ++ ' ' :: joinSp (w2 :: ws)

/-- PUNCT.sub(" ", s): replace every non-word character by a space. -/
def punctSub (l : List Char) : List Char :=
  l.map (fun c => if isWordChar c then c else ' ')

/-- Python s.lower() (ASCII fragment, as Char.toLower). -/
def lowerList (l : List Char) : List Char :=
  l.map Char.toLower

/-- The lexical normal form computed at tablecreator.py:259:
" ".join(PUNCT.sub(" ", string).lower().split()). -/
def normalizeLower (l : List Char) : List Char :=
  joinSp (pySplit (lowerList (punctSub l)))

/-- Number of UTF-8 bytes of one character, as in Python s.encode("utf-8"). -/
def charBytes (c : Char) : Nat :=
  if c.toNat < 0x80 then 1
  else if c.toNat < 0x800 then 2
  else if c.toNat < 0x10000 then 3
  else 4

/-- UTF-8 byte length of a character list: len(s.encode("utf-8")). -/
def listBytes (l : List Char) : Nat :=
  (l.map charBytes).sum

/-- UTF-8 byte length of a string. -/
def utf8Len (s : String) : Nat :=
  listBytes s.data

/-- Strict decode of the first n bytes of the UTF-8 encoding of a character
list (Python byte_string[:n].decode("utf-8") for n at most the byte length):
succeeds with the decoded characters exactly when the cut at n bytes falls on
a character boundary, and fails (UnicodeDecodeError) when it would split a
multi-byte character. -/
def decodeTrunc : Nat → List Char → Option (List Char)
  | 0, _ => some []
  | _ + 1, [] => none
  | n + 1, c :: cs =>
    if charBytes c ≤ n + 1 then
      (decodeTrunc (n + 1 - charBytes c) cs).map (fun t => c :: t)
    else none

/-- The BSON length guard at tablecreator.py:246-249: encode to UTF-8 and, if
the byte length is at least 1000, truncate to the first 1000 bytes and decode
back; none models the UnicodeDecodeError raised on an unsafe cut. -/
def bsonGuard (s : String) : Option String :=
  if 1000 ≤ utf8Len s then (decodeTrunc 1000 s.data).map String.mk
  else some s

/-- Drop leading whitespace. -/
def dropLeadWs : List Char → List Char
  | [] => []
  | c :: cs => if c.isWhitespace then dropLeadWs cs else c :: cs

/-- Python str.strip(): drop whitespace at both ends. -/
def pyStrip (l : List Char) : List Char :=
  dropLeadWs (dropLeadWs l.reverse).reverse

/-- record.strip().split("|") at the head of every processing loop. -/
def splitRecord (line : String) : List String :=
  (chunksBy (fun c => c == '|') (pyStrip line.data)).map String.mk

/-- Positional field access split[i]: IndexError when the row is too short. -/
def field (r : List String) (i : Nat) : Except Err String :=
  match r.get? i with
  | some v => Except.ok v
  | none => Except.error Err.indexError

/-- Lookup in an association list (insertion-ordered Python dict). -/
def alookup {α : Type} : List (String × α) → String → Option α
  | [], _ => none
  | (k2, v) :: rest, k => if k2 = k then some v else alookup rest k

/-- Write a key in an association list, keeping insertion order: replace the
value in place when the key is present, append the pair otherwise. -/
def aset {α : Type} : List (String × α) → String → α → List (String × α)
  | [], k, v => [(k, v)]
  | (k2, v2) :: rest, k, v =>
    if k2 = k then (k2, v) :: rest else (k2, v2) :: aset rest k v

/-- LANGDICT at tablecreator.py:20-43: UMLS language code to the langid
(ISO-639 style) code space. -/
def LANGDICT : List (String × String) :=
  [("ENG", "en"), ("BAQ", "eu"), ("CHI", "zh"), ("CZE", "cz"), ("DAN", "dk"),
   ("DUT", "nl"), ("EST", "et"), ("FIN", "fi"), ("FRE", "fr"), ("GER", "de"),
   ("GRE", "gr"), ("HEB", "he"), ("HUN", "hu"), ("ITA", "it"), ("JPN", "jp"),
   ("KOR", "ko"), ("LAV", "lv"), ("NOR", "no"), ("POL", "pl"), ("POR", "po"),
   ("RUS", "ru"), ("SPA", "sp"), ("SWE", "sw"), ("TUR", "tr")]

/-- RELATIONMAPPING at tablecreator.py:45-57: relation code to relation name. -/
def RELATIONMAPPING : List (String × String) :=
  [("PAR", "parent"), ("CHD", "child"), ("RB", "broader"), ("RN", "narrower"),
   ("SY", "synonym"), ("RO", "other"), ("RL", "similar"), ("RQ", "related"),
   ("SIB", "sibling"), ("AQ", "qualifier"), ("QB", "qualifies"),
   ("RU", "unspecified"), ("XR", "notrelated")]

/-- One concept aggregate (the inner dict of the concepts defaultdict).
Fields keep the Python dictionary key names; Option none and the empty list
model a key that was never written. -/
structure Concept where
  _id : Option String := none
  preferred : Option String := none
  lui : List String := []
  sui : List String := []
  rel : Option (List (String × List String)) := none
  definition : List String := []
  semtype : List String := []
deriving DecidableEq, Repr

/-- One term aggregate (keyed by LUI). -/
structure TermRec where
  _id : Option String := none
  cui : List String := []
  sui : List String := []
deriving DecidableEq, Repr

/-- One string aggregate (keyed by SUI). -/
structure StringRec where
  _id : Option String := none
  string : String := ""
  lower : String := ""
  lang : String := ""
  numwords : Nat := 0
  numwordslower : Nat := 0
  lui : String := ""
  cui : List String := []
deriving DecidableEq, Repr

abbrev CMap := List (String × Concept)
abbrev TMap := List (String × TermRec)
abbrev SMap := List (String × StringRec)

/-- defaultdict access concepts[k]: the stored record, or a fresh default. -/
def getC (m : CMap) (k : String) : Concept :=
  (alookup m k).getD {}

/-- defaultdict access terms[k]. -/
def getT (m : TMap) (k : String) : TermRec :=
  (alookup m k).getD {}

/-- defaultdict access strings[k]. -/
def getS (m : SMap) (k : String) : StringRec :=
  (alookup m k).getD {}

/-- The language filter "if languages and split[1] not in languages:
continue": true means the row is skipped. -/
def langReject (langs : List String) (l : String) : Bool :=
  !langs.isEmpty && !langs.contains l

/-- Append v to the defaultdict(list) entry for key k (d[k].append(v)). -/
def appendRel : List (String × List String) → String → String → List (String × List String)
  | [], k, v => [(k, [v])]
  | (k2, l) :: rest, k, v =>
    if k2 = k then (k2, l ++ [v]) :: rest else (k2, l) :: appendRel rest k v

/-- The relation list stored under name in the concepts map at key k (empty
when the concept, its rel dict, or the name is absent). -/
def relGet (m : CMap) (k : String) (name : String) : List String :=
  (alookup ((getC m k).rel.getD []) name).getD []

/-- The mutations one accepted MRCONSO row applies to its concept record
(tablecreator.py:180-186): set _id, set preferred from the LUI when the
term-status flag is "P", and append to the lui and sui lists. -/
def conceptUpdate (c : Concept) (cui flag lui sui : String) : Concept :=
  let c1 := { c with _id := some cui }
  let c2 := if flag = "P" then { c1 with preferred := some lui } else c1
  { c2 with lui := c2.lui ++ [lui], sui := c2.sui ++ [sui] }

/-- One MRCONSO row for the concepts pass (tablecreator.py:169-186), on the
already split fields: language filter on split[1], then cui = split[0],
sui = split[5], lui = split[3], and the record mutations. -/
def conceptStep (langs : List String) (m : CMap) (r : List String) : Except Err CMap := do
  let l ← field r 1
  if langReject langs l then Except.ok m
  else do
    let cui ← field r 0
    let sui ← field r 5
    let lui ← field r 3
    let flag ← field r 2
    Except.ok (aset m cui (conceptUpdate (getC m cui) cui flag lui sui))

/-- One MRCONSO row for the terms pass (tablecreator.py:210-223). -/
def termStep (langs : List String) (m : TMap) (r : List String) : Except Err TMap := do
  let l ← field r 1
  if langReject langs l then Except.ok m
  else do
    let cui ← field r 0
    let sui ← field r 5
    let lui ← field r 3
    let t := getT m lui
    Except.ok (aset m lui { t with _id := some lui, cui := t.cui ++ [cui], sui := t.sui ++ [sui] })

/-- One MRCONSO row for the strings pass (tablecreator.py:240-268): take
split[14], run the BSON byte-length guard on it, then apply the language
filter, then store all fields of the string record (scalars overwritten,
cui appended). -/
def stringStep (langs : List String) (m : SMap) (r : List String) : Except Err SMap := do
  let s0 ← field r 14
  let s ← match bsonGuard s0 with
    | some s => Except.ok s
    | none => Except.error Err.unicodeDecodeError
  let l ← field r 1
  if langReject langs l then Except.ok m
  else do
    let cui ← field r 0
    let sui ← field r 5
    let lui ← field r 3
    let lower := String.mk (normalizeLower s.data)
    let old := getS m sui
    Except.ok (aset m sui
      { _id := some sui, string := s, lower := lower, lang := l,
        numwords := (pySplit s.data).length,
        numwordslower := (pySplit lower.data).length,
        lui := lui, cui := old.cui ++ [cui] })

/-- The rel dict of a concept, as seen by the try/except TypeError branch at
tablecreator.py:298-302: the stored dict when it was already initialized,
a fresh empty dict when the access would hit the defaultdict-list default
(the TypeError branch). -/
def relDict (c : Concept) : List (String × List String) :=
  match c.rel with
  | some rm => rm
  | none => []

/-- One MRREL row (tablecreator.py:288-302): source = split[4],
dest = split[0], rel = RELATIONMAPPING[split[3]] (KeyError when the code is
absent from the fixed table); append dest to concepts[source]["rel"][rel]. -/
def relStep (m : CMap) (r : List String) : Except Err CMap := do
  let source ← field r 4
  let dest ← field r 0
  let code ← field r 3
  match alookup RELATIONMAPPING code with
  | none => Except.error Err.keyError
  | some rel =>
    let c := getC m source
    Except.ok (aset m source { c with rel := some (appendRel (relDict c) rel dest) })

/-- One MRDEF row (tablecreator.py:345-362): pk = split[0], definition =
split[5], classify the definition language, keep the row only when the
classified code is in the mapped language set, preprocess and append. -/
def mrdefStep (classify : String → String) (pre : String → String)
    (iso : List String) (m : CMap) (r : List String) : Except Err CMap := do
  let pk ← field r 0
  let d ← field r 5
  let lang := classify d
  if iso.contains lang then
    let d2 := pre d
    let c := getC m pk
    Except.ok (aset m pk { c with definition := c.definition ++ [d2] })
  else Except.ok m

/-- One MRSTY row (tablecreator.py:383-389): cui = split[0], append split[2]
to concepts[cui]["semtype"]. -/
def styStep (m : CMap) (r : List String) : Except Err CMap := do
  let cui ← field r 0
  let st ← field r 2
  let c := getC m cui
  Except.ok (aset m cui { c with semtype := c.semtype ++ [st] })

/-- Sequential processing of the lines of one file: stop at the first row
error (no skip-and-continue). -/
def foldSteps {σ ρ : Type} (step : σ → ρ → Except Err σ) : List ρ → σ → Except Err σ
  | [], m => Except.ok m
  | r :: rs, m =>
    match step m r with
    | Except.ok m2 => foldSteps step rs m2
    | Except.error e => Except.error e

/-- The line-counting pre-pass "for idx, _ in enumerate(open(path)): pass;
num_lines = idx": the loop variable after the loop is the zero-based index of
the last line, and on an empty file the name idx is never bound (NameError,
modelled as none). -/
def countLines (lines : List String) : Option Nat :=
  match lines with
  | [] => none
  | _ => some (lines.length - 1)

/-- isolanguages at tablecreator.py:335: map every configured language code
through LANGDICT (KeyError, i.e. none, when a code is unmapped). -/
def isoSet (langs : List String) : Option (List String) :=
  langs.mapM (fun l => alookup LANGDICT l)

/-- The strings pass of _create_strings: count lines, then stream MRCONSO. -/
def stringsPass (langs : List String) (lines : List String) : Except Err SMap :=
  match countLines lines with
  | none => Except.error Err.nameError
  | some _ => foldSteps (fun m line => stringStep langs m (splitRecord line)) lines []

/-- The terms pass of _create_terms. -/
def termsPass (langs : List String) (lines : List String) : Except Err TMap :=
  match countLines lines with
  | none => Except.error Err.nameError
  | some _ => foldSteps (fun m line => termStep langs m (splitRecord line)) lines []

/-- The primary MRCONSO pass of _create_concepts (tablecreator.py:159-186). -/
def consoConceptsPass (langs : List String) (lines : List String) : Except Err CMap :=
  match countLines lines with
  | none => Except.error Err.nameError
  | some _ => foldSteps (fun m line => conceptStep langs m (splitRecord line)) lines []

/-- process_mrdef (tablecreator.py:307-370); the trailing list() rewrite of
the definition entries is the identity on the record model. -/
def mrdefPass (classify : String → String) (pre : String → String)
    (langs : List String) (lines : List String) (m : CMap) : Except Err CMap :=
  match isoSet langs with
  | none => Except.error Err.keyError
  | some iso =>
    match countLines lines with
    | none => Except.error Err.nameError
    | some _ => foldSteps (mrdefStep classify pre iso) (lines.map splitRecord) m

/-- process_mrrel (tablecreator.py:273-304). -/
def mrrelPass (lines : List String) (m : CMap) : Except Err CMap :=
  match countLines lines with
  | none => Except.error Err.nameError
  | some _ => foldSteps relStep (lines.map splitRecord) m

/-- process_mrsty (tablecreator.py:373-391). -/
def mrstyPass (lines : List String) (m : CMap) : Except Err CMap :=
  match countLines lines with
  | none => Except.error Err.nameError
  | some _ => foldSteps styStep (lines.map splitRecord) m

/-- An optional enrichment pass: run it when its toggle is on, return the
concept map unchanged when it is off (the "if process_x:" guards at
tablecreator.py:188-193). -/
def optPass (b : Bool) (pass : CMap → Except Err CMap) (m : CMap) : Except Err CMap :=
  if b then pass m else Except.ok m

/-- _create_concepts (tablecreator.py:129-195): the MRCONSO pass followed by
the three optional enrichment passes in their fixed order (definitions, then
relations, then semantic types). -/
def createConcepts (langs : List String)
    (procDefs procRels procStys : Bool)
    (classify : String → String) (pre : String → String)
    (conso mrdefLines mrrelLines mrstyLines : List String) : Except Err CMap := do
  let m ← consoConceptsPass langs conso
  let m ← optPass procDefs (mrdefPass classify pre langs mrdefLines) m
  let m ← optPass procRels (mrrelPass mrrelLines) m
  let m ← optPass procStys (mrstyPass mrstyLines) m
  Except.ok m

instance {ε α : Type} [DecidableEq ε] [DecidableEq α] : DecidableEq (Except ε α) := fun x y =>
  match x, y with
  | Except.ok a, Except.ok b =>
    if h : a = b then isTrue (by rw [h]) else isFalse (fun hh => by cases hh; exact h rfl)
  | Except.error a, Except.error b =>
    if h : a = b then isTrue (by rw [h]) else isFalse (fun hh => by cases hh; exact h rfl)
  | Except.ok _, Except.error _ => isFalse (fun hh => by cases hh)
  | Except.error _, Except.ok _ => isFalse (fun hh => by cases hh)

theorem alookup_aset_self {α : Type} (m : List (String × α)) (k : String) (v : α) :
    alookup (aset m k v) k = some v := by
  induction m with
  | nil => simp [aset, alookup]
  | cons p rest ih =>
    obtain ⟨k2, v2⟩ := p
    by_cases h : k2 = k
    · simp [aset, alookup, h]
    · simp [aset, alookup, h, ih]

theorem alookup_aset_ne {α : Type} (m : List (String × α)) (k k2 : String) (v : α)
    (h : k2 ≠ k) : alookup (aset m k v) k2 = alookup m k2 := by
  induction m with
  | nil =>
    simp only [aset, alookup]
    rw [if_neg (fun hh : k = k2 => h hh.symm)]
  | cons p rest ih =>
    obtain ⟨k3, v3⟩ := p
    simp only [aset]
    by_cases h3 : k3 = k
    · rw [if_pos h3]
      subst h3
      simp only [alookup]
      rw [if_neg (fun hh : k3 = k2 => h hh.symm), if_neg (fun hh : k3 = k2 => h hh.symm)]
    · rw [if_neg h3]
      simp only [alookup]
      by_cases h2 : k3 = k2
      · rw [if_pos h2, if_pos h2]
      · rw [if_neg h2, if_neg h2, ih]

theorem getC_aset (m : CMap) (k k2 : String) (c : Concept) :
    getC (aset m k c) k2 = if k2 = k then c else getC m k2 := by
  by_cases h : k2 = k
  · subst h; simp [getC, alookup_aset_self]
  · simp [getC, h, alookup_aset_ne m k k2 c h]

theorem foldSteps_inv {σ ρ : Type} (P : σ → Prop) (step : σ → ρ → Except Err σ)
    (hstep : ∀ m r m2, P m → step m r = Except.ok m2 → P m2) :
    ∀ (rows : List ρ) (m m2 : σ), P m → foldSteps step rows m = Except.ok m2 → P m2 := by
  intro rows
  induction rows with
  | nil => intro m m2 hP h; simp [foldSteps] at h; exact h ▸ hP
  | cons r rs ih =>
    intro m m2 hP h
    simp only [foldSteps] at h
    cases hr : step m r with
    | ok m3 => rw [hr] at h; exact ih m3 m2 (hstep m r m3 hP hr) h
    | error e => rw [hr] at h; cases h

theorem charBytes_pos (c : Char) : 1 ≤ charBytes c := by
  unfold charBytes
  split <;> [skip; split <;> [skip; split]] <;> omega

theorem listBytes_cons (c : Char) (l : List Char) :
    listBytes (c :: l) = charBytes c + listBytes l := by
  simp [listBytes]

theorem decodeTrunc_ok (n : Nat) (cs t : List Char) (h : decodeTrunc n cs = some t) :
    listBytes t = n ∧ ∃ rest, t ++ rest = cs := by
  induction cs generalizing n t with
  | nil =>
    cases n with
    | zero =>
      simp only [decodeTrunc, Option.some.injEq] at h
      subst h
      exact ⟨rfl, [], rfl⟩
    | succ k => simp [decodeTrunc] at h
  | cons c cs2 ih =>
    cases n with
    | zero =>
      simp only [decodeTrunc, Option.some.injEq] at h
      subst h
      exact ⟨rfl, c :: cs2, rfl⟩
    | succ k =>
      simp only [decodeTrunc] at h
      by_cases hb : charBytes c ≤ k + 1
      · rw [if_pos hb] at h
        cases ht : decodeTrunc (k + 1 - charBytes c) cs2 with
        | none => rw [ht] at h; simp at h
        | some t2 =>
          rw [ht] at h
          simp only [Option.map, Option.some.injEq] at h
          obtain ⟨hlen, rest, hrest⟩ := ih (k + 1 - charBytes c) t2 ht
          subst h
          refine ⟨?_, rest, ?_⟩
          · rw [listBytes_cons, hlen]; omega
          · simp [hrest]
      · rw [if_neg hb] at h; cases h

theorem decodeTrunc_complete (p : List Char) :
    ∀ (rest cs : List Char) (n : Nat), p ++ rest = cs → listBytes p = n →
    decodeTrunc n cs = some p := by
  induction p with
  | nil =>
    intro rest cs n hcs hn
    have : n = 0 := by simpa [listBytes] using hn.symm
    subst this
    simp [decodeTrunc]
  | cons c p2 ih =>
    intro rest cs n hcs hn
    rw [listBytes_cons] at hn
    have hpos := charBytes_pos c
    cases n with
    | zero => omega
    | succ k =>
      subst hcs
      simp only [List.cons_append, decodeTrunc]
      rw [if_pos (by omega)]
      simp only [List.append_eq]
      rw [ih rest (p2 ++ rest) (k + 1 - charBytes c) rfl (by omega)]
      simp

theorem bsonGuard_le (s t : String) (h : bsonGuard s = some t) : utf8Len t ≤ 1000 := by
  unfold bsonGuard at h
  by_cases hl : 1000 ≤ utf8Len s
  · rw [if_pos hl] at h
    cases hd : decodeTrunc 1000 s.data with
    | none => rw [hd] at h; simp at h
    | some t2 =>
      rw [hd] at h
      simp only [Option.map, Option.some.injEq] at h
      obtain ⟨hlen, _⟩ := decodeTrunc_ok 1000 s.data t2 hd
      rw [← h]
      simp [utf8Len, hlen]
  · rw [if_neg hl] at h
    simp only [Option.some.injEq] at h
    subst h
    omega

theorem bsonGuard_isPre (s t : String) (h : bsonGuard s = some t) :
    ∃ rest, t.data ++ rest = s.data := by
  unfold bsonGuard at h
  by_cases hl : 1000 ≤ utf8Len s
  · rw [if_pos hl] at h
    cases hd : decodeTrunc 1000 s.data with
    | none => rw [hd] at h; simp at h
    | some t2 =>
      rw [hd] at h
      simp only [Option.map, Option.some.injEq] at h
      obtain ⟨_, rest, hrest⟩ := decodeTrunc_ok 1000 s.data t2 hd
      exact ⟨rest, by rw [← h]; exact hrest⟩
  · rw [if_neg hl] at h
    simp only [Option.some.injEq] at h
    subst h
    exact ⟨[], by simp⟩

theorem alookup_appendRel (rm : List (String × List String)) (k v : String) :
    alookup (appendRel rm k v) k = some ((alookup rm k).getD [] ++ [v]) := by
  induction rm with
  | nil => simp [appendRel, alookup]
  | cons p rest ih =>
    obtain ⟨k2, l⟩ := p
    by_cases h : k2 = k
    · simp [appendRel, alookup, h]
    · simp [appendRel, alookup, h, ih]

theorem relDict_eq (c : Concept) : relDict c = c.rel.getD [] := by
  unfold relDict
  cases c.rel <;> rfl

theorem relStep_eq (m : CMap) (r : List String) (s o code rel : String)
    (h0 : r.get? 0 = some s) (h3 : r.get? 3 = some code) (h4 : r.get? 4 = some o)
    (hc : alookup RELATIONMAPPING code = some rel) :
    relStep m r = Except.ok
      (aset m o { getC m o with rel := some (appendRel (relDict (getC m o)) rel s) }) := by
  simp only [relStep, field, h0, h3, h4, Bind.bind, Except.bind, hc]

/-- C4 counterexample: the pre-pass scan is NOT the line count: on a one-line
file it produces 0 (the index of the last line), not 1, and on a zero-line
file it produces no integer at all (the loop variable is never bound). -/
theorem countLines_cex :
    countLines ["a"] = some 0 ∧ countLines ["a"] ≠ some 1 ∧ countLines [] = none := by
  decide

/-- C4 (amended): the pre-pass scan used to size the progress indicator
produces the number of lines minus one (the zero-based index of the last
line) on every non-empty file, and on an empty file it fails with a
NameError (no integer is produced). -/
theorem countLines_minus_one (lines : List String) :
    (lines = [] → countLines lines = none)
    ∧ (lines ≠ [] → countLines lines = some (lines.length - 1)) := by
  constructor
  · intro h; subst h; rfl
  · intro h
    cases lines with
    | nil => exact absurd rfl h
    | cons a as => rfl

/-- C4 witness: on a concrete two-line file the scan produces 1, which is
the length minus one. -/
theorem countLines_minus_one_witness : countLines ["a", "b"] = some 1 :=
  (countLines_minus_one ["a", "b"]).2 (by decide)

/-- C1 counterexample: on the relation row with C001 in column 0, code PAR
in column 3 and C002 in column 4, the relations pass does NOT give
concepts["C001"].relations["parent"] == ["C002"]: the produced map has no
entry for C001 at all (its parent list reads empty), because the code keys
by the column-4 CUI and appends the column-0 CUI. -/
theorem relations_subject_keyed_cex :
    relStep ([] : CMap) ["C001", "x1", "x2", "PAR", "C002", "x5"]
      = Except.ok [("C002", { rel := some [("parent", ["C001"])] })]
    ∧ relGet [("C002", ({ rel := some [("parent", ["C001"])] } : Concept))] "C001" "parent" = []
    ∧ (([] : List String) ≠ ["C002"]) := by
  decide

/-- C1 (amended): for every relation-file row whose column-0 CUI is S, whose
column-3 code maps to relation name R, and whose column-4 CUI is O, the
relations pass appends S to the relations list named R of the Concept keyed
by O (and leaves every other concept unchanged); in particular the row
(C001, PAR, C002) yields concepts["C002"].relations["parent"] == ["C001"]. -/
theorem relations_object_keyed (m : CMap) (r : List String) (s o code rel : String)
    (h0 : r.get? 0 = some s) (h3 : r.get? 3 = some code) (h4 : r.get? 4 = some o)
    (hc : alookup RELATIONMAPPING code = some rel) :
    ∃ m2, relStep m r = Except.ok m2 ∧
      relGet m2 o rel = relGet m o rel ++ [s] ∧
      ∀ k, k ≠ o → getC m2 k = getC m k := by
  refine ⟨_, relStep_eq m r s o code rel h0 h3 h4 hc, ?_, ?_⟩
  · unfold relGet
    rw [getC_aset]
    rw [if_pos rfl]
    simp only [Option.getD_some]
    rw [relDict_eq, alookup_appendRel]
    rfl
  · intro k hk
    rw [getC_aset, if_neg hk]

/-- C1 witness: the concrete scenario row (C001, PAR, C002) processed from
the empty concept map appends C001 to the parent list of C002. -/
theorem relations_object_keyed_witness :
    ∃ m2, relStep ([] : CMap) ["C001", "x1", "x2", "PAR", "C002", "x5"] = Except.ok m2 ∧
      relGet m2 "C002" "parent" = relGet ([] : CMap) "C002" "parent" ++ ["C001"] ∧
      ∀ k, k ≠ "C002" → getC m2 k = getC ([] : CMap) k :=
  relations_object_keyed [] ["C001", "x1", "x2", "PAR", "C002", "x5"]
    "C001" "C002" "PAR" "parent" rfl rfl rfl (by decide)

theorem get?_getD (l : List String) (i : Nat) (h : i < l.length) :
    l.get? i = some (l.getD i "") := by
  rw [List.getD_eq_getElem?_getD, ← List.get?_eq_getElem?, List.get?_eq_get h]
  rfl

theorem relStep_err (m : CMap) (r : List String) (hlen : 5 ≤ r.length)
    (hc : alookup RELATIONMAPPING (r.getD 3 "") = none) :
    relStep m r = Except.error Err.keyError := by
  have h4 := get?_getD r 4 (by omega)
  have h0 := get?_getD r 0 (by omega)
  have h3 := get?_getD r 3 (by omega)
  simp only [relStep, field, h0, h3, h4, Bind.bind, Except.bind, hc]

theorem relStep_known_ok (m : CMap) (r : List String) (hlen : 5 ≤ r.length)
    (hc : (alookup RELATIONMAPPING (r.getD 3 "")).isSome) :
    ∃ m2, relStep m r = Except.ok m2 := by
  obtain ⟨rel, hrel⟩ := Option.isSome_iff_exists.mp hc
  exact ⟨_, relStep_eq m r (r.getD 0 "") (r.getD 4 "") (r.getD 3 "") rel
    (get?_getD r 0 (by omega)) (get?_getD r 3 (by omega)) (get?_getD r 4 (by omega)) hrel⟩

theorem foldRel_err (rows : List (List String)) :
    ∀ m : CMap, (∀ r ∈ rows, 5 ≤ r.length) →
    (∃ r ∈ rows, alookup RELATIONMAPPING (r.getD 3 "") = none) →
    foldSteps relStep rows m = Except.error Err.keyError := by
  induction rows with
  | nil => intro m _ h; simp at h
  | cons r rs ih =>
    intro m hwf hex
    simp only [foldSteps]
    by_cases hr : alookup RELATIONMAPPING (r.getD 3 "") = none
    · rw [relStep_err m r (hwf r (List.mem_cons_self r rs)) hr]
    · obtain ⟨m2, hm2⟩ :=
        relStep_known_ok m r (hwf r (List.mem_cons_self r rs)) (Option.ne_none_iff_isSome.mp hr)
      rw [hm2]
      apply ih m2 (fun r2 h2 => hwf r2 (List.mem_cons_of_mem r h2))
      obtain ⟨r2, hmem, hr2⟩ := hex
      rcases List.mem_cons.mp hmem with he | ht
      · subst he; exact absurd hr2 hr
      · exact ⟨r2, ht, hr2⟩

theorem foldRel_ok (rows : List (List String)) :
    ∀ m : CMap, (∀ r ∈ rows, 5 ≤ r.length) →
    (∀ r ∈ rows, (alookup RELATIONMAPPING (r.getD 3 "")).isSome) →
    ∃ m2, foldSteps relStep rows m = Except.ok m2 := by
  induction rows with
  | nil => intro m _ _; exact ⟨m, rfl⟩
  | cons r rs ih =>
    intro m hwf hall
    obtain ⟨m2, hm2⟩ :=
      relStep_known_ok m r (hwf r (List.mem_cons_self r rs)) (hall r (List.mem_cons_self r rs))
    obtain ⟨m3, hm3⟩ := ih m2 (fun r2 h2 => hwf r2 (List.mem_cons_of_mem r h2))
      (fun r2 h2 => hall r2 (List.mem_cons_of_mem r h2))
    exact ⟨m3, by simp only [foldSteps, hm2]; exact hm3⟩

/-- C6: for every relation-file row, a relation code absent from the fixed
RELATIONMAPPING table makes the relations pass abort with the KeyError that
RELATIONMAPPING[split[3]] raises (no skip-and-continue: the whole pass
returns this error), while a pass over rows whose codes are all present in
the table raises no such error. -/
theorem mrrel_unknown_code_fatal (lines : List String) (m : CMap)
    (hwf : ∀ line ∈ lines, 5 ≤ (splitRecord line).length) :
    ((∃ line ∈ lines, alookup RELATIONMAPPING ((splitRecord line).getD 3 "") = none) →
       mrrelPass lines m = Except.error Err.keyError)
    ∧ (lines ≠ [] →
       (∀ line ∈ lines, (alookup RELATIONMAPPING ((splitRecord line).getD 3 "")).isSome) →
       ∃ m2, mrrelPass lines m = Except.ok m2) := by
  constructor
  · intro hex
    cases lines with
    | nil => simp at hex
    | cons a as =>
      simp only [mrrelPass, countLines]
      apply foldRel_err
      · intro r2 h2
        obtain ⟨line, hline, rfl⟩ := List.mem_map.mp h2
        exact hwf line hline
      · obtain ⟨line, hline, hl⟩ := hex
        exact ⟨splitRecord line, List.mem_map.mpr ⟨line, hline, rfl⟩, hl⟩
  · intro hne hall
    cases lines with
    | nil => exact absurd rfl hne
    | cons a as =>
      simp only [mrrelPass, countLines]
      apply foldRel_ok
      · intro r2 h2
        obtain ⟨line, hline, rfl⟩ := List.mem_map.mp h2
        exact hwf line hline
      · intro r2 h2
        obtain ⟨line, hline, rfl⟩ := List.mem_map.mp h2
        exact hall line hline

/-- C6 witness: a pass over the single row with unknown code ZZZ returns the
KeyError, and a pass over the single row with known code PAR succeeds. -/
theorem mrrel_unknown_code_fatal_witness :
    mrrelPass ["C1|a|b|ZZZ|C2"] [] = Except.error Err.keyError ∧
    ∃ m2, mrrelPass ["C1|a|b|PAR|C2"] [] = Except.ok m2 :=
  ⟨(mrrel_unknown_code_fatal ["C1|a|b|ZZZ|C2"] [] (by decide)).1 (by decide),
   (mrrel_unknown_code_fatal ["C1|a|b|PAR|C2"] [] (by decide)).2 (by decide) (by decide)⟩

/-- C10: a relation-file row (respectively a semantic-type-file row) whose
key CUI has no entry in the concept map is neither skipped nor an error: it
creates a fresh concept under that CUI holding only the rel (respectively
semtype) field, with _id and preferred unset and lui and sui empty, so the
returned concept map can contain keys never seen in MRCONSO. -/
theorem enrichment_fresh_concept (m : CMap) (r r2 : List String)
    (k s code rel k2 st : String)
    (hk : alookup m k = none) (hk2 : alookup m k2 = none)
    (h4 : r.get? 4 = some k) (h0 : r.get? 0 = some s) (h3 : r.get? 3 = some code)
    (hc : alookup RELATIONMAPPING code = some rel)
    (g0 : r2.get? 0 = some k2) (g2 : r2.get? 2 = some st) :
    relStep m r = Except.ok (aset m k ({ rel := some [(rel, [s])] } : Concept))
    ∧ styStep m r2 = Except.ok (aset m k2 ({ semtype := [st] } : Concept)) := by
  have hg : getC m k = {} := by simp [getC, hk]
  have hg2 : getC m k2 = {} := by simp [getC, hk2]
  constructor
  · rw [relStep_eq m r s k code rel h0 h3 h4 hc, hg]
    rfl
  · simp only [styStep, field, g0, g2, Bind.bind, Except.bind, hg2]
    rfl

/-- C10 witness: concrete MRREL and MRSTY rows keyed by CUIs absent from the
empty concept map create fresh one-field concepts. -/
theorem enrichment_fresh_concept_witness :
    relStep ([] : CMap) ["C9", "a", "b", "PAR", "C7"]
      = Except.ok (aset ([] : CMap) "C7" ({ rel := some [("parent", ["C9"])] } : Concept))
    ∧ styStep ([] : CMap) ["C8", "a", "T047"]
      = Except.ok (aset ([] : CMap) "C8" ({ semtype := ["T047"] } : Concept)) :=
  enrichment_fresh_concept [] ["C9", "a", "b", "PAR", "C7"] ["C8", "a", "T047"]
    "C7" "C9" "PAR" "parent" "C8" "T047" rfl rfl rfl rfl rfl (by decide) rfl rfl

theorem getT_aset (m : TMap) (k k2 : String) (c : TermRec) :
    getT (aset m k c) k2 = if k2 = k then c else getT m k2 := by
  by_cases h : k2 = k
  · subst h; simp [getT, alookup_aset_self]
  · simp [getT, h, alookup_aset_ne m k k2 c h]

theorem getS_aset (m : SMap) (k k2 : String) (c : StringRec) :
    getS (aset m k c) k2 = if k2 = k then c else getS m k2 := by
  by_cases h : k2 = k
  · subst h; simp [getS, alookup_aset_self]
  · simp [getS, h, alookup_aset_ne m k k2 c h]

theorem conceptUpdate_lui (c : Concept) (cui flag lui sui : String) :
    (conceptUpdate c cui flag lui sui).lui = c.lui ++ [lui] := by
  unfold conceptUpdate
  by_cases h : flag = "P" <;> simp [h]

theorem conceptUpdate_sui (c : Concept) (cui flag lui sui : String) :
    (conceptUpdate c cui flag lui sui).sui = c.sui ++ [sui] := by
  unfold conceptUpdate
  by_cases h : flag = "P" <;> simp [h]

theorem conceptStep_acc (langs : List String) (m : CMap) (r : List String)
    (l cui flag lui sui : String)
    (h1 : r.get? 1 = some l) (hrej : langReject langs l = false)
    (h0 : r.get? 0 = some cui) (h5 : r.get? 5 = some sui)
    (h3 : r.get? 3 = some lui) (h2 : r.get? 2 = some flag) :
    conceptStep langs m r
      = Except.ok (aset m cui (conceptUpdate (getC m cui) cui flag lui sui)) := by
  simp only [conceptStep, field, h1, h0, h5, h3, h2, Bind.bind, Except.bind, hrej,
    Bool.false_eq_true, if_false]

theorem termStep_acc (langs : List String) (m : TMap) (r : List String)
    (l cui lui sui : String)
    (h1 : r.get? 1 = some l) (hrej : langReject langs l = false)
    (h0 : r.get? 0 = some cui) (h5 : r.get? 5 = some sui) (h3 : r.get? 3 = some lui) :
    termStep langs m r = Except.ok (aset m lui
      { getT m lui with
        _id := some lui,
        cui := (getT m lui).cui ++ [cui], sui := (getT m lui).sui ++ [sui] }) := by
  simp only [termStep, field, h1, h0, h5, h3, Bind.bind, Except.bind, hrej,
    Bool.false_eq_true, if_false]

theorem stringStep_acc (langs : List String) (m : SMap) (r : List String)
    (l s t cui lui sui : String)
    (h14 : r.get? 14 = some s) (hbg : bsonGuard s = some t)
    (h1 : r.get? 1 = some l) (hrej : langReject langs l = false)
    (h0 : r.get? 0 = some cui) (h5 : r.get? 5 = some sui) (h3 : r.get? 3 = some lui) :
    stringStep langs m r = Except.ok (aset m sui
      { _id := some sui, string := t, lower := String.mk (normalizeLower t.data),
        lang := l, numwords := (pySplit t.data).length,
        numwordslower := (pySplit (normalizeLower t.data)).length,
        lui := lui, cui := (getS m sui).cui ++ [cui] }) := by
  simp only [stringStep, field, h14, hbg, h1, h0, h5, h3, Bind.bind, Except.bind, hrej,
    Bool.false_eq_true, if_false]

/-- C2: the language filter contract of the MRCONSO passes: with an empty
configured language set every row passes, with a non-empty set a row passes
exactly when its column-1 language code is an exact member of the set; a
rejected row leaves the concept, term, and string aggregates unchanged, and
an accepted row mutates them (the appropriate record list grows by the
row's reference). -/
theorem language_filter_contract (langs : List String) (l : String) :
    (langReject langs l = false ↔ (langs = [] ∨ l ∈ langs))
    ∧ (∀ (m : CMap) (r : List String), r.get? 1 = some l → langReject langs l = true →
        conceptStep langs m r = Except.ok m)
    ∧ (∀ (m : TMap) (r : List String), r.get? 1 = some l → langReject langs l = true →
        termStep langs m r = Except.ok m)
    ∧ (∀ (m : SMap) (r : List String) (s t : String), r.get? 14 = some s →
        bsonGuard s = some t → r.get? 1 = some l → langReject langs l = true →
        stringStep langs m r = Except.ok m)
    ∧ (∀ (m : CMap) (r : List String) (cui flag lui sui : String),
        r.get? 1 = some l → langReject langs l = false →
        r.get? 0 = some cui → r.get? 5 = some sui →
        r.get? 3 = some lui → r.get? 2 = some flag →
        ∃ m2, conceptStep langs m r = Except.ok m2 ∧
          (getC m2 cui).lui = (getC m cui).lui ++ [lui] ∧
          (getC m2 cui).sui = (getC m cui).sui ++ [sui])
    ∧ (∀ (m : TMap) (r : List String) (cui lui sui : String),
        r.get? 1 = some l → langReject langs l = false →
        r.get? 0 = some cui → r.get? 5 = some sui → r.get? 3 = some lui →
        ∃ m2, termStep langs m r = Except.ok m2 ∧
          (getT m2 lui).cui = (getT m lui).cui ++ [cui])
    ∧ (∀ (m : SMap) (r : List String) (s t cui lui sui : String),
        r.get? 14 = some s → bsonGuard s = some t →
        r.get? 1 = some l → langReject langs l = false →
        r.get? 0 = some cui → r.get? 5 = some sui → r.get? 3 = some lui →
        ∃ m2, stringStep langs m r = Except.ok m2 ∧
          (getS m2 sui).cui = (getS m sui).cui ++ [cui] ∧
          (getS m2 sui).string = t) := by
  refine ⟨?_, ?_, ?_, ?_, ?_, ?_, ?_⟩
  · constructor
    · intro h
      cases langs with
      | nil => exact Or.inl rfl
      | cons a as =>
        right
        have hc : (a :: as).contains l = true := by
          cases hx : (a :: as).contains l
          · unfold langReject at h
            rw [hx] at h
            simp at h
          · rfl
        simpa [List.contains] using List.mem_of_elem_eq_true hc
    · intro h
      rcases h with h | h
      · subst h; rfl
      · have : langs.contains l = true := by
          simpa [List.contains] using List.elem_eq_true_of_mem h
        simp only [langReject, this, Bool.not_true, Bool.and_false]
  · intro m r h1 hrej
    simp only [conceptStep, field, h1, Bind.bind, Except.bind, hrej, if_true]
  · intro m r h1 hrej
    simp only [termStep, field, h1, Bind.bind, Except.bind, hrej, if_true]
  · intro m r s t h14 hbg h1 hrej
    simp only [stringStep, field, h14, hbg, h1, Bind.bind, Except.bind, hrej, if_true]
  · intro m r cui flag lui sui h1 hrej h0 h5 h3 h2
    refine ⟨_, conceptStep_acc langs m r l cui flag lui sui h1 hrej h0 h5 h3 h2, ?_, ?_⟩
    · rw [getC_aset, if_pos rfl, conceptUpdate_lui]
    · rw [getC_aset, if_pos rfl, conceptUpdate_sui]
  · intro m r cui lui sui h1 hrej h0 h5 h3
    refine ⟨_, termStep_acc langs m r l cui lui sui h1 hrej h0 h5 h3, ?_⟩
    rw [getT_aset, if_pos rfl]
  · intro m r s t cui lui sui h14 hbg h1 hrej h0 h5 h3
    refine ⟨_, stringStep_acc langs m r l s t cui lui sui h14 hbg h1 hrej h0 h5 h3, ?_, ?_⟩
    · rw [getS_aset, if_pos rfl]
    · rw [getS_aset, if_pos rfl]

/-- C2 witness: with the set containing only ENG, a concrete FRE row is
skipped by the concepts pass (the map is returned unchanged), and a concrete
ENG row is accepted (its LUI is appended to the concept's lui list). -/
theorem language_filter_contract_witness :
    conceptStep ["ENG"] [] ["C1", "FRE", "P", "L1", "x", "S1"] = Except.ok []
    ∧ ∃ m2, conceptStep ["ENG"] [] ["C1", "ENG", "P", "L1", "x", "S1"] = Except.ok m2 ∧
        (getC m2 "C1").lui = (getC ([] : CMap) "C1").lui ++ ["L1"] ∧
        (getC m2 "C1").sui = (getC ([] : CMap) "C1").sui ++ ["S1"] :=
  ⟨(language_filter_contract ["ENG"] "FRE").2.1 [] ["C1", "FRE", "P", "L1", "x", "S1"]
      rfl (by decide),
   (language_filter_contract ["ENG"] "ENG").2.2.2.2.1 [] ["C1", "ENG", "P", "L1", "x", "S1"]
      "C1" "P" "L1" "S1" rfl (by decide) rfl rfl rfl rfl⟩

theorem stringStep_ok_inv (langs : List String) (m : SMap) (r : List String) (m2 : SMap)
    (h : stringStep langs m r = Except.ok m2) :
    m2 = m ∨ ∃ sui rec s0, bsonGuard s0 = some rec.string ∧ m2 = aset m sui rec := by
  simp only [stringStep, field, Bind.bind, Except.bind] at h
  cases h14 : r.get? 14 with
  | none => simp only [h14] at h; exact Except.noConfusion h
  | some s0 =>
    cases hbg : bsonGuard s0 with
    | none => simp only [h14, hbg] at h; exact Except.noConfusion h
    | some t =>
      cases h1 : r.get? 1 with
      | none => simp only [h14, hbg, h1] at h; exact Except.noConfusion h
      | some l =>
        by_cases hrej : langReject langs l = true
        · left
          simp only [h14, hbg, h1, hrej, if_true] at h
          cases h
          rfl
        · simp only [h14, hbg, h1] at h
          rw [if_neg hrej] at h
          cases h0 : r.get? 0 with
          | none => simp only [h0] at h; exact Except.noConfusion h
          | some cui =>
            cases h5 : r.get? 5 with
            | none => simp only [h0, h5] at h; exact Except.noConfusion h
            | some sui =>
              cases h3 : r.get? 3 with
              | none => simp only [h0, h5, h3] at h; exact Except.noConfusion h
              | some lui =>
                right
                simp only [h0, h5, h3, Except.ok.injEq] at h
                exact ⟨sui, _, s0, hbg, h.symm⟩

/-- C3: every string record in a successfully returned string aggregate set
has a string field of UTF-8 byte length at most 1000, and the byte-length
guard only ever stores a character-prefix of the original surface string
(truncation never splits a multi-byte character: the stored value decodes to
whole leading characters of the original). -/
theorem strings_bounded :
    (∀ (langs lines : List String) (m : SMap), stringsPass langs lines = Except.ok m →
       ∀ k rec, alookup m k = some rec → utf8Len rec.string ≤ 1000)
    ∧ (∀ s t : String, bsonGuard s = some t → ∃ rest, t.data ++ rest = s.data) := by
  constructor
  · intro langs lines m hpass k rec hrec
    unfold stringsPass at hpass
    cases hcl : countLines lines with
    | none => rw [hcl] at hpass; cases hpass
    | some n =>
      rw [hcl] at hpass
      have := foldSteps_inv
        (fun mm => ∀ k rec, alookup mm k = some rec → utf8Len rec.string ≤ 1000)
        (fun mm line => stringStep langs mm (splitRecord line))
        ?_ lines [] m ?_ hpass
      · exact this k rec hrec
      · intro mm r mm2 hP hstep
        intro k2 rec2 hrec2
        rcases stringStep_ok_inv langs mm (splitRecord r) mm2 hstep with he | ⟨sui, rec3, s0, hbg, he⟩
        · subst he; exact hP k2 rec2 hrec2
        · subst he
          by_cases hk : k2 = sui
          · subst hk
            rw [alookup_aset_self] at hrec2
            cases hrec2
            exact bsonGuard_le s0 rec2.string hbg
          · rw [alookup_aset_ne mm sui k2 rec3 hk] at hrec2
            exact hP k2 rec2 hrec2
      · intro k2 rec2 hrec2
        cases hrec2
  · exact bsonGuard_isPre

/-- C3 witness: a concrete one-row MRCONSO file yields a string aggregate in
which the record under S1 has a string of no more than 1000 bytes. -/
theorem strings_bounded_witness :
    utf8Len ({ _id := some "S1", string := "Hello, World!", lower := "hello world",
               lang := "ENG", numwords := 2, numwordslower := 2,
               lui := "L1", cui := ["C1"] } : StringRec).string ≤ 1000 :=
  strings_bounded.1 [] ["C1|ENG|P|L1|a|S1|a|a|a|a|a|a|a|a|Hello, World!"]
    [("S1", { _id := some "S1", string := "Hello, World!", lower := "hello world",
              lang := "ENG", numwords := 2, numwordslower := 2,
              lui := "L1", cui := ["C1"] })]
    (by decide) "S1" _ (by decide)

/-- C7: for every surface string of UTF-8 byte length at least 1000, the
guard either truncates to exactly the first 1000 bytes at a character
boundary (the stored value is a character-prefix of the original of byte
length exactly 1000), or, when no character boundary falls at the 1000-byte
cut (the cut would split a multi-byte character), it raises an explicit
UnicodeDecodeError instead of storing corrupted text: no prefix of exactly
1000 bytes exists in that case. -/
theorem truncation_boundary_safe (s : String) (h : 1000 ≤ utf8Len s) :
    (∃ t : String, bsonGuard s = some t ∧ utf8Len t = 1000 ∧
       ∃ rest, t.data ++ rest = s.data)
    ∨ (bsonGuard s = none ∧ ∀ (p rest : List Char), p ++ rest = s.data → listBytes p ≠ 1000) := by
  unfold bsonGuard
  rw [if_pos h]
  cases hd : decodeTrunc 1000 s.data with
  | some t2 =>
    left
    obtain ⟨hlen, rest, hrest⟩ := decodeTrunc_ok 1000 s.data t2 hd
    exact ⟨String.mk t2, rfl, hlen, rest, hrest⟩
  | none =>
    right
    refine ⟨rfl, ?_⟩
    intro p rest hp hl
    have := decodeTrunc_complete p rest s.data 1000 hp hl
    rw [hd] at this
    cases this

set_option maxRecDepth 10000 in
/-- C7 witness: a 1000-byte all-ASCII string meets the guard and is kept
whole as its own 1000-byte prefix. -/
theorem truncation_boundary_safe_witness :
    (∃ t : String, bsonGuard (String.mk (List.replicate 1000 'a')) = some t ∧
       utf8Len t = 1000 ∧
       ∃ rest, t.data ++ rest = (String.mk (List.replicate 1000 'a')).data)
    ∨ (bsonGuard (String.mk (List.replicate 1000 'a')) = none ∧
       ∀ (p rest : List Char), p ++ rest = (String.mk (List.replicate 1000 'a')).data →
         listBytes p ≠ 1000) :=
  truncation_boundary_safe (String.mk (List.replicate 1000 'a')) (by decide)

theorem foldSteps_const {σ ρ : Type} (step : σ → ρ → Except Err σ) :
    ∀ (rows : List ρ) (m : σ), (∀ r ∈ rows, step m r = Except.ok m) →
    foldSteps step rows m = Except.ok m := by
  intro rows
  induction rows with
  | nil => intro m _; rfl
  | cons r rs ih =>
    intro m h
    simp only [foldSteps, h r (List.mem_cons_self r rs)]
    exact ih m (fun r2 h2 => h r2 (List.mem_cons_of_mem r h2))

theorem mrdefStep_skip (classify pre : String → String) (m : CMap) (r : List String)
    (hlen : 6 ≤ r.length) : mrdefStep classify pre [] m r = Except.ok m := by
  have h0 := get?_getD r 0 (by omega)
  have h5 := get?_getD r 5 (by omega)
  simp only [mrdefStep, field, h0, h5, Bind.bind, Except.bind]
  rfl

theorem conceptUpdate_definition (c : Concept) (cui flag lui sui : String) :
    (conceptUpdate c cui flag lui sui).definition = c.definition := by
  unfold conceptUpdate
  by_cases h : flag = "P" <;> simp [h]

theorem conceptStep_ok_inv (langs : List String) (m : CMap) (r : List String) (m2 : CMap)
    (h : conceptStep langs m r = Except.ok m2) :
    m2 = m ∨ ∃ cui flag lui sui,
      m2 = aset m cui (conceptUpdate (getC m cui) cui flag lui sui) := by
  simp only [conceptStep, field, Bind.bind, Except.bind] at h
  cases h1 : r.get? 1 with
  | none => simp only [h1] at h; exact Except.noConfusion h
  | some l =>
    by_cases hrej : langReject langs l = true
    · left
      simp only [h1, hrej, if_true] at h
      cases h
      rfl
    · simp only [h1] at h
      rw [if_neg hrej] at h
      cases h0 : r.get? 0 with
      | none => simp only [h0] at h; exact Except.noConfusion h
      | some cui =>
        cases h5 : r.get? 5 with
        | none => simp only [h0, h5] at h; exact Except.noConfusion h
        | some sui =>
          cases h3 : r.get? 3 with
          | none => simp only [h0, h5, h3] at h; exact Except.noConfusion h
          | some lui =>
            cases h2 : r.get? 2 with
            | none => simp only [h0, h5, h3, h2] at h; exact Except.noConfusion h
            | some flag =>
              right
              simp only [h0, h5, h3, h2, Except.ok.injEq] at h
              exact ⟨cui, flag, lui, sui, h.symm⟩

/-- C9: with an empty configured language set, the MRCONSO language filter
accepts every row, yet the definitions pass appends nothing: the mapped
language set is empty, so every classified language fails the membership
test and the concept map is returned unchanged; moreover the MRCONSO
concepts pass itself never writes a definition, so every concept's
definitions list is empty. -/
theorem empty_langset_no_definitions :
    (∀ l, langReject [] l = false)
    ∧ (∀ (classify pre : String → String) (lines : List String) (m : CMap),
        lines ≠ [] → (∀ line ∈ lines, 6 ≤ (splitRecord line).length) →
        mrdefPass classify pre [] lines m = Except.ok m)
    ∧ (∀ (langs conso : List String) (m0 : CMap),
        consoConceptsPass langs conso = Except.ok m0 →
        ∀ k, (getC m0 k).definition = []) := by
  refine ⟨fun l => rfl, ?_, ?_⟩
  · intro classify pre lines m hne hwf
    have hiso : isoSet [] = some [] := rfl
    cases lines with
    | nil => exact absurd rfl hne
    | cons a as =>
      simp only [mrdefPass, hiso, countLines]
      apply foldSteps_const
      intro r2 h2
      obtain ⟨line, hline, rfl⟩ := List.mem_map.mp h2
      exact mrdefStep_skip classify pre m (splitRecord line) (hwf line hline)
  · intro langs conso m0 hpass k
    unfold consoConceptsPass at hpass
    cases hcl : countLines conso with
    | none => rw [hcl] at hpass; cases hpass
    | some n =>
      rw [hcl] at hpass
      have := foldSteps_inv (fun mm => ∀ k2, (getC mm k2).definition = [])
        (fun mm line => conceptStep langs mm (splitRecord line))
        ?_ conso [] m0 ?_ hpass
      · exact this k
      · intro mm r mm2 hP hstep
        intro k2
        rcases conceptStep_ok_inv langs mm (splitRecord r) mm2 hstep with
          he | ⟨cui, flag, lui, sui, he⟩
        · subst he; exact hP k2
        · subst he
          rw [getC_aset]
          by_cases hk : k2 = cui
          · rw [if_pos hk, conceptUpdate_definition]
            exact hP cui
          · rw [if_neg hk]
            exact hP k2
      · intro k2; rfl

/-- C9 witness: a concrete definitions pass with the empty language set over
a one-row MRDEF file returns the empty concept map unchanged, whatever the
classifier says. -/
theorem empty_langset_no_definitions_witness :
    mrdefPass (fun _ => "en") id [] ["C1|a|b|c|d|Some definition"] [] = Except.ok [] :=
  empty_langset_no_definitions.2.1 (fun _ => "en") id ["C1|a|b|c|d|Some definition"] []
    (by decide) (by decide)

theorem conceptUpdate_preferred (c : Concept) (cui flag lui sui : String) :
    (conceptUpdate c cui flag lui sui).preferred
      = if flag = "P" then some lui else c.preferred := by
  unfold conceptUpdate
  by_cases h : flag = "P" <;> simp [h]

theorem relStep_ok_inv (m : CMap) (r : List String) (m2 : CMap)
    (h : relStep m r = Except.ok m2) :
    ∃ o rel s, m2 = aset m o
      { getC m o with rel := some (appendRel (relDict (getC m o)) rel s) } := by
  simp only [relStep, field, Bind.bind, Except.bind] at h
  cases h4 : r.get? 4 with
  | none => simp only [h4] at h; exact Except.noConfusion h
  | some o =>
    cases h0 : r.get? 0 with
    | none => simp only [h4, h0] at h; exact Except.noConfusion h
    | some s =>
      cases h3 : r.get? 3 with
      | none => simp only [h4, h0, h3] at h; exact Except.noConfusion h
      | some code =>
        cases hc : alookup RELATIONMAPPING code with
        | none => simp only [h4, h0, h3, hc] at h; exact Except.noConfusion h
        | some rel =>
          simp only [h4, h0, h3, hc, Except.ok.injEq] at h
          exact ⟨o, rel, s, h.symm⟩

theorem styStep_ok_inv (m : CMap) (r : List String) (m2 : CMap)
    (h : styStep m r = Except.ok m2) :
    ∃ cui st, m2 = aset m cui
      { getC m cui with semtype := (getC m cui).semtype ++ [st] } := by
  simp only [styStep, field, Bind.bind, Except.bind] at h
  cases h0 : r.get? 0 with
  | none => simp only [h0] at h; exact Except.noConfusion h
  | some cui =>
    cases h2 : r.get? 2 with
    | none => simp only [h0, h2] at h; exact Except.noConfusion h
    | some st =>
      simp only [h0, h2, Except.ok.injEq] at h
      exact ⟨cui, st, h.symm⟩

theorem mrdefStep_ok_inv (classify pre : String → String) (iso : List String)
    (m : CMap) (r : List String) (m2 : CMap)
    (h : mrdefStep classify pre iso m r = Except.ok m2) :
    m2 = m ∨ ∃ pk d, m2 = aset m pk
      { getC m pk with definition := (getC m pk).definition ++ [d] } := by
  simp only [mrdefStep, field, Bind.bind, Except.bind] at h
  cases h0 : r.get? 0 with
  | none => simp only [h0] at h; exact Except.noConfusion h
  | some pk =>
    cases h5 : r.get? 5 with
    | none => simp only [h0, h5] at h; exact Except.noConfusion h
    | some d =>
      by_cases hin : iso.contains (classify d) = true
      · simp only [h0, h5, hin, if_true, Except.ok.injEq] at h
        exact Or.inr ⟨pk, pre d, h.symm⟩
      · simp only [h0, h5] at h
        rw [if_neg hin] at h
        cases h
        exact Or.inl rfl

/-- The C5 invariant: whenever a concept's preferred LUI is set, it occurs
in that concept's lui list. -/
def PrefInv (m : CMap) : Prop :=
  ∀ k p, (getC m k).preferred = some p → p ∈ (getC m k).lui

theorem prefInv_aset (m : CMap) (k : String) (c : Concept) (hm : PrefInv m)
    (hc : ∀ p, c.preferred = some p → p ∈ c.lui) : PrefInv (aset m k c) := by
  intro k2 p hp
  rw [getC_aset] at hp ⊢
  by_cases hk : k2 = k
  · rw [if_pos hk] at hp ⊢
    exact hc p hp
  · rw [if_neg hk] at hp ⊢
    exact hm k2 p hp

theorem conceptStep_pref (langs : List String) (m : CMap) (r : List String) (m2 : CMap)
    (h : conceptStep langs m r = Except.ok m2) (hm : PrefInv m) : PrefInv m2 := by
  rcases conceptStep_ok_inv langs m r m2 h with he | ⟨cui, flag, lui, sui, he⟩
  · exact he ▸ hm
  · subst he
    apply prefInv_aset m cui _ hm
    intro p hp
    rw [conceptUpdate_preferred] at hp
    rw [conceptUpdate_lui]
    by_cases hf : flag = "P"
    · rw [if_pos hf] at hp
      cases hp
      exact List.mem_append_right _ (List.mem_singleton_self _)
    · rw [if_neg hf] at hp
      exact List.mem_append_left _ (hm cui p hp)

theorem relStep_pref (m : CMap) (r : List String) (m2 : CMap)
    (h : relStep m r = Except.ok m2) (hm : PrefInv m) : PrefInv m2 := by
  obtain ⟨o, rel, s, he⟩ := relStep_ok_inv m r m2 h
  subst he
  exact prefInv_aset m o _ hm (fun p hp => hm o p hp)

theorem styStep_pref (m : CMap) (r : List String) (m2 : CMap)
    (h : styStep m r = Except.ok m2) (hm : PrefInv m) : PrefInv m2 := by
  obtain ⟨cui, st, he⟩ := styStep_ok_inv m r m2 h
  subst he
  exact prefInv_aset m cui _ hm (fun p hp => hm cui p hp)

theorem mrdefStep_pref (classify pre : String → String) (iso : List String)
    (m : CMap) (r : List String) (m2 : CMap)
    (h : mrdefStep classify pre iso m r = Except.ok m2) (hm : PrefInv m) : PrefInv m2 := by
  rcases mrdefStep_ok_inv classify pre iso m r m2 h with he | ⟨pk, d, he⟩
  · exact he ▸ hm
  · subst he
    exact prefInv_aset m pk _ hm (fun p hp => hm pk p hp)

theorem consoConceptsPass_pref (langs conso : List String) (m0 : CMap)
    (h : consoConceptsPass langs conso = Except.ok m0) : PrefInv m0 := by
  unfold consoConceptsPass at h
  cases hcl : countLines conso with
  | none => rw [hcl] at h; cases h
  | some n =>
    rw [hcl] at h
    refine foldSteps_inv PrefInv _ ?_ conso [] m0 ?_ h
    · intro mm line mm2 hP hstep
      exact conceptStep_pref langs mm (splitRecord line) mm2 hstep hP
    · intro k p hp
      cases hp

theorem mrdefPass_pref (classify pre : String → String) (langs lines : List String)
    (m m2 : CMap) (h : mrdefPass classify pre langs lines m = Except.ok m2)
    (hm : PrefInv m) : PrefInv m2 := by
  unfold mrdefPass at h
  cases hiso : isoSet langs with
  | none => rw [hiso] at h; cases h
  | some iso =>
    rw [hiso] at h
    cases hcl : countLines lines with
    | none => rw [hcl] at h; cases h
    | some n =>
      rw [hcl] at h
      exact foldSteps_inv PrefInv _
        (fun mm r mm2 hP hstep => mrdefStep_pref classify pre iso mm r mm2 hstep hP)
        (lines.map splitRecord) m m2 hm h

theorem mrrelPass_pref (lines : List String) (m m2 : CMap)
    (h : mrrelPass lines m = Except.ok m2) (hm : PrefInv m) : PrefInv m2 := by
  unfold mrrelPass at h
  cases hcl : countLines lines with
  | none => rw [hcl] at h; cases h
  | some n =>
    rw [hcl] at h
    exact foldSteps_inv PrefInv _
      (fun mm r mm2 hP hstep => relStep_pref mm r mm2 hstep hP)
      (lines.map splitRecord) m m2 hm h

theorem mrstyPass_pref (lines : List String) (m m2 : CMap)
    (h : mrstyPass lines m = Except.ok m2) (hm : PrefInv m) : PrefInv m2 := by
  unfold mrstyPass at h
  cases hcl : countLines lines with
  | none => rw [hcl] at h; cases h
  | some n =>
    rw [hcl] at h
    exact foldSteps_inv PrefInv _
      (fun mm r mm2 hP hstep => styStep_pref mm r mm2 hstep hP)
      (lines.map splitRecord) m m2 hm h

/-- C5: in every concept map returned by the full concepts pipeline
(MRCONSO pass plus whichever enrichment passes are enabled), a concept whose
preferred LUI is set has that LUI in its lui list: preferred is only ever
written in a row step that also appends the same LUI to the list, and later
appends and enrichment writes never remove list elements. -/
theorem preferred_lui_in_lui_list (langs : List String) (pd pr ps : Bool)
    (classify pre : String → String) (conso dl rl sl : List String) (m : CMap)
    (h : createConcepts langs pd pr ps classify pre conso dl rl sl = Except.ok m) :
    ∀ k p, (getC m k).preferred = some p → p ∈ (getC m k).lui := by
  have hopt : ∀ (b : Bool) (pass : CMap → Except Err CMap)
      (hpass : ∀ mm mm2, pass mm = Except.ok mm2 → PrefInv mm → PrefInv mm2)
      (mm mm2 : CMap), optPass b pass mm = Except.ok mm2 → PrefInv mm → PrefInv mm2 := by
    intro b pass hpass mm mm2 hopt hP
    cases b with
    | false =>
      rw [optPass, if_neg (by simp)] at hopt
      cases hopt
      exact hP
    | true =>
      rw [optPass, if_pos rfl] at hopt
      exact hpass mm mm2 hopt hP
  simp only [createConcepts, Bind.bind, Except.bind] at h
  cases hc : consoConceptsPass langs conso with
  | error e => simp only [hc] at h; exact Except.noConfusion h
  | ok m0 =>
    simp only [hc] at h
    have hP0 : PrefInv m0 := consoConceptsPass_pref langs conso m0 hc
    cases hd : optPass pd (mrdefPass classify pre langs dl) m0 with
    | error e => simp only [hd] at h; exact Except.noConfusion h
    | ok m1 =>
      simp only [hd] at h
      have hP1 : PrefInv m1 := hopt pd _
        (fun mm mm2 hh hP => mrdefPass_pref classify pre langs dl mm mm2 hh hP) m0 m1 hd hP0
      cases hr : optPass pr (mrrelPass rl) m1 with
      | error e => simp only [hr] at h; exact Except.noConfusion h
      | ok m2 =>
        simp only [hr] at h
        have hP2 : PrefInv m2 := hopt pr _
          (fun mm mm2 hh hP => mrrelPass_pref rl mm mm2 hh hP) m1 m2 hr hP1
        cases hs : optPass ps (mrstyPass sl) m2 with
        | error e => simp only [hs] at h; exact Except.noConfusion h
        | ok m3 =>
          simp only [hs, Except.ok.injEq] at h
          subst h
          have hP3 : PrefInv m3 := hopt ps _
            (fun mm mm2 hh hP => mrstyPass_pref sl mm mm2 hh hP) m2 m3 hs hP2
          exact fun k p hp => hP3 k p hp

/-- C5 witness: a concrete run over one preferred-flagged MRCONSO row (with
all enrichment passes disabled) returns a map where the preferred LUI L1 of
concept C1 is in its lui list. -/
theorem preferred_lui_in_lui_list_witness : "L1" ∈ (getC
    [("C1", { _id := some "C1", preferred := some "L1",
              lui := ["L1"], sui := ["S1"] })] "C1").lui :=
  preferred_lui_in_lui_list [] false false false (fun _ => "en") id
    ["C1|ENG|P|L1|a|S1"] [] [] []
    [("C1", { _id := some "C1", preferred := some "L1", lui := ["L1"], sui := ["S1"] })]
    (by decide) "C1" "L1" (by decide)

theorem ule_toNat (a b : UInt32) : (a ≤ b) ↔ a.toNat ≤ b.toNat := by
  simp [UInt32.le_def, BitVec.le_def, UInt32.toNat]

theorem isUpper_iff (c : Char) : c.isUpper = true ↔ 65 ≤ c.toNat ∧ c.toNat ≤ 90 := by
  simp only [Char.isUpper, Bool.and_eq_true, decide_eq_true_eq, ge_iff_le, ule_toNat]
  constructor
  · intro ⟨h1, h2⟩
    exact ⟨h1, h2⟩
  · intro ⟨h1, h2⟩
    exact ⟨h1, h2⟩

theorem isLower_iff (c : Char) : c.isLower = true ↔ 97 ≤ c.toNat ∧ c.toNat ≤ 122 := by
  simp only [Char.isLower, Bool.and_eq_true, decide_eq_true_eq, ge_iff_le, ule_toNat]
  constructor
  · intro ⟨h1, h2⟩
    exact ⟨h1, h2⟩
  · intro ⟨h1, h2⟩
    exact ⟨h1, h2⟩

theorem isDigit_iff (c : Char) : c.isDigit = true ↔ 48 ≤ c.toNat ∧ c.toNat ≤ 57 := by
  simp only [Char.isDigit, Bool.and_eq_true, decide_eq_true_eq, ge_iff_le, ule_toNat]
  constructor
  · intro ⟨h1, h2⟩
    exact ⟨h1, h2⟩
  · intro ⟨h1, h2⟩
    exact ⟨h1, h2⟩

theorem toNat_ofNat_valid (m : Nat) (h : m < 0xd800) : (Char.ofNat m).toNat = m := by
  rw [Char.ofNat, dif_pos (Or.inl h : m.isValidChar)]
  simp [Char.ofNatAux, Char.toNat, UInt32.toNat]

theorem toNat_toLower (c : Char) :
    (Char.toLower c).toNat
      = if 65 ≤ c.toNat ∧ c.toNat ≤ 90 then c.toNat + 32 else c.toNat := by
  unfold Char.toLower
  split
  · next h =>
    rw [if_pos (by exact ⟨h.1, h.2⟩), toNat_ofNat_valid _ (by omega)]
  · next h =>
    rw [if_neg (by exact fun hh => h ⟨hh.1, hh.2⟩)]

theorem isWhitespace_false_of (c : Char)
    (h : c.toNat ≠ 32 ∧ c.toNat ≠ 9 ∧ c.toNat ≠ 13 ∧ c.toNat ≠ 10) :
    c.isWhitespace = false := by
  simp only [Char.isWhitespace, Bool.or_eq_false_iff, decide_eq_false_iff_not]
  refine ⟨⟨⟨?_, ?_⟩, ?_⟩, ?_⟩ <;> intro he <;> subst he <;> simp_all

theorem isAlphanum_ranges (c : Char) (h : c.isAlphanum = true) :
    (48 ≤ c.toNat ∧ c.toNat ≤ 57) ∨ (65 ≤ c.toNat ∧ c.toNat ≤ 90)
      ∨ (97 ≤ c.toNat ∧ c.toNat ≤ 122) := by
  simp only [Char.isAlphanum, Char.isAlpha, Bool.or_eq_true] at h
  rcases h with (h | h) | h
  · exact Or.inr (Or.inl ((isUpper_iff c).mp h))
  · exact Or.inr (Or.inr ((isLower_iff c).mp h))
  · exact Or.inl ((isDigit_iff c).mp h)

theorem toLower_not_ws (c : Char) (h : isWordChar c = true) :
    (Char.toLower c).isWhitespace = false := by
  simp only [isWordChar, Bool.or_eq_true, beq_iff_eq] at h
  rcases h with h | h
  · have hr := isAlphanum_ranges c h
    apply isWhitespace_false_of
    rw [toNat_toLower]
    by_cases hin : 65 ≤ c.toNat ∧ c.toNat ≤ 90
    · rw [if_pos hin]
      omega
    · rw [if_neg hin]
      omega
  · subst h
    decide

theorem chunksBy_ne_nil (p : Char → Bool) (l : List Char) : chunksBy p l ≠ [] := by
  induction l with
  | nil => simp [chunksBy]
  | cons c cs ih =>
    simp only [chunksBy]
    by_cases hc : p c = true
    · simp [hc]
    · rw [Bool.not_eq_true] at hc
      simp only [hc, Bool.false_eq_true, if_false]
      cases h2 : chunksBy p cs <;> simp

theorem chunksBy_word (p : Char → Bool) (w : List Char) :
    ∀ r : List Char, (∀ c ∈ w, p c = false) →
    chunksBy p (w ++ r) = (chunksBy p r).modifyHead (fun x => w ++ x) := by
  induction w with
  | nil =>
    intro r _
    cases hr : chunksBy p r with
    | nil => exact absurd hr (chunksBy_ne_nil p r)
    | cons y ys => simp [List.modifyHead, hr]
  | cons c w2 ih =>
    intro r hw
    have hc : p c = false := hw c (List.mem_cons_self c w2)
    simp only [List.cons_append, chunksBy, hc, Bool.false_eq_true, if_false]
    simp only [List.append_eq]
    rw [ih r (fun c2 h2 => hw c2 (List.mem_cons_of_mem c h2))]
    cases hr : chunksBy p r with
    | nil => exact absurd hr (chunksBy_ne_nil p r)
    | cons y ys => simp [List.modifyHead]

theorem isEmpty_false_of_ne_nil (w : List Char) (h : w ≠ []) : w.isEmpty = false := by
  cases w with
  | nil => exact absurd rfl h
  | cons a as => rfl

theorem pySplit_joinSp : ∀ ws : List (List Char),
    (∀ w ∈ ws, w ≠ [] ∧ ∀ c ∈ w, c.isWhitespace = false) →
    pySplit (joinSp ws) = ws := by
  intro ws
  induction ws with
  | nil => intro _; rfl
  | cons w ws2 ih =>
    intro h
    have hw := h w (List.mem_cons_self w ws2)
    cases ws2 with
    | nil =>
      unfold pySplit
      have hcw := chunksBy_word (fun c => c.isWhitespace) w [] hw.2
      rw [List.append_nil] at hcw
      show (chunksBy (fun c => c.isWhitespace) (joinSp [w])).filter (fun x => !x.isEmpty) = [w]
      rw [show joinSp [w] = w from rfl, hcw]
      simp [chunksBy, List.modifyHead, List.filter, isEmpty_false_of_ne_nil w hw.1]
    | cons w2 ws3 =>
      unfold pySplit
      show (chunksBy (fun c => c.isWhitespace)
        (w ++ ' ' :: joinSp (w2 :: ws3))).filter (fun x => !x.isEmpty) = w :: w2 :: ws3
      rw [chunksBy_word (fun c => c.isWhitespace) w (' ' :: joinSp (w2 :: ws3)) hw.2]
      rw [show chunksBy (fun c => c.isWhitespace) (' ' :: joinSp (w2 :: ws3))
          = [] :: chunksBy (fun c => c.isWhitespace) (joinSp (w2 :: ws3)) from by
        simp [chunksBy]]
      simp only [List.modifyHead, List.append_nil]
      rw [List.filter_cons,
        if_pos (show (!w.isEmpty) = true by rw [isEmpty_false_of_ne_nil w hw.1]; rfl)]
      have ih2 := ih (fun w3 h3 => h w3 (List.mem_cons_of_mem w h3))
      unfold pySplit at ih2
      exact congrArg (fun x => w :: x) ih2

theorem lowerList_joinSp : ∀ ws : List (List Char),
    lowerList (joinSp ws) = joinSp (ws.map lowerList) := by
  intro ws
  induction ws with
  | nil => rfl
  | cons w ws2 ih =>
    cases ws2 with
    | nil => rfl
    | cons w2 ws3 =>
      show lowerList (w ++ ' ' :: joinSp (w2 :: ws3))
        = joinSp (lowerList w :: lowerList w2 :: ws3.map lowerList)
      simp only [lowerList, List.map_append, List.map_cons]
      rw [show Char.toLower ' ' = ' ' from by decide]
      show List.map Char.toLower w ++ ' ' :: List.map Char.toLower (joinSp (w2 :: ws3))
        = List.map Char.toLower w ++ ' ' :: joinSp (List.map Char.toLower w2 :: ws3.map lowerList)
      have ih2 : List.map Char.toLower (joinSp (w2 :: ws3))
          = joinSp (List.map Char.toLower w2 :: ws3.map lowerList) := by
        have := ih
        simp only [lowerList, List.map_cons] at this
        exact this
      rw [ih2]

theorem mem_joinSp : ∀ (ws : List (List Char)) (c : Char),
    c ∈ joinSp ws → (∃ w ∈ ws, c ∈ w) ∨ c = ' ' := by
  intro ws
  induction ws with
  | nil => intro c hc; cases hc
  | cons w ws2 ih =>
    cases ws2 with
    | nil =>
      intro c hc
      exact Or.inl ⟨w, List.mem_cons_self w [], hc⟩
    | cons w2 ws3 =>
      intro c hc
      show _
      rcases List.mem_append.mp hc with h | h
      · exact Or.inl ⟨w, List.mem_cons_self w (w2 :: ws3), h⟩
      · rcases List.mem_cons.mp h with h | h
        · exact Or.inr h
        · rcases ih c h with ⟨w3, hw3, hc3⟩ | h2
          · exact Or.inl ⟨w3, List.mem_cons_of_mem w hw3, hc3⟩
          · exact Or.inr h2

theorem punctSub_id : ∀ l : List Char,
    (∀ c ∈ l, isWordChar c = true ∨ c = ' ') → punctSub l = l := by
  intro l
  induction l with
  | nil => intro _; rfl
  | cons c cs ih =>
    intro h
    simp only [punctSub, List.map_cons]
    have h1 : (if isWordChar c then c else ' ') = c := by
      rcases h c (List.mem_cons_self c cs) with hw | hs
      · rw [if_pos hw]
      · subst hs
        cases hx : isWordChar ' ' <;> simp
    rw [h1]
    have ih2 := ih (fun c2 h2 => h c2 (List.mem_cons_of_mem c h2))
    simp only [punctSub] at ih2
    rw [ih2]

theorem pySplit_spaces : ∀ l : List Char,
    (∀ c ∈ l, c.isWhitespace = true) → pySplit l = [] := by
  intro l
  induction l with
  | nil => intro _; rfl
  | cons c cs ih =>
    intro h
    unfold pySplit
    simp only [chunksBy, h c (List.mem_cons_self c cs), if_true]
    rw [List.filter_cons]
    simp only [List.isEmpty_nil, Bool.not_true, Bool.false_eq_true, if_false]
    have ih2 := ih (fun c2 h2 => h c2 (List.mem_cons_of_mem c h2))
    unfold pySplit at ih2
    exact ih2

/-- Single spaces: no two adjacent characters are both spaces. -/
def noDoubleSpace : List Char → Bool
  | a :: b :: rest => !(a == ' ' && b == ' ') && noDoubleSpace (b :: rest)
  | _ => true

/-- C8 counterexample: the string " a" consists only of word characters and
single spaces, yet its normalized form "a" differs from its lowercased form
" a": the normalizer also strips leading (and trailing) spaces. -/
theorem normalize_edge_space_cex :
    ([' ', 'a'].all (fun c => isWordChar c || c == ' ')) = true
    ∧ noDoubleSpace [' ', 'a'] = true
    ∧ normalizeLower [' ', 'a'] ≠ lowerList [' ', 'a'] := by
  decide

/-- C8 (amended): for every string that is a join of nonempty words of word
characters separated by single spaces (equivalently: only word characters
and single interior spaces, with no leading or trailing space), the
normalized form equals the string lowercased; and for every string of only
non-word characters, the normalized form is empty and its whitespace-token
count numwordslower is 0. -/
theorem normalize_roundtrip :
    (∀ ws : List (List Char),
       (∀ w ∈ ws, w ≠ [] ∧ ∀ c ∈ w, isWordChar c = true) →
       normalizeLower (joinSp ws) = lowerList (joinSp ws))
    ∧ (∀ l : List Char, (∀ c ∈ l, isWordChar c = false) →
       normalizeLower l = [] ∧ (pySplit (normalizeLower l)).length = 0) := by
  constructor
  · intro ws h
    unfold normalizeLower
    rw [punctSub_id (joinSp ws) ?hchars]
    case hchars =>
      intro c hc
      rcases mem_joinSp ws c hc with ⟨w, hw, hcw⟩ | hsp
      · exact Or.inl ((h w hw).2 c hcw)
      · exact Or.inr hsp
    rw [lowerList_joinSp ws]
    rw [pySplit_joinSp (ws.map lowerList) ?hwords]
    case hwords =>
      intro w2 hw2
      obtain ⟨w, hw, rfl⟩ := List.mem_map.mp hw2
      refine ⟨?_, ?_⟩
      · intro hnil
        exact absurd (List.map_eq_nil_iff.mp hnil) (h w hw).1
      · intro c2 hc2
        obtain ⟨c, hc, rfl⟩ := List.mem_map.mp hc2
        exact toLower_not_ws c ((h w hw).2 c hc)
  · intro l h
    have hall : ∀ c2 ∈ lowerList (punctSub l), c2.isWhitespace = true := by
      intro c2 hc2
      obtain ⟨c1, hc1, rfl⟩ := List.mem_map.mp hc2
      obtain ⟨c, hc, rfl⟩ := List.mem_map.mp hc1
      rw [if_neg (by simp [h c hc])]
      decide
    have h1 : normalizeLower l = [] := by
      unfold normalizeLower
      rw [pySplit_spaces _ hall]
      rfl
    exact ⟨h1, by rw [h1]; rfl⟩

/-- C8 witness: normalizing the two-word string "aB c3" yields its
lowercasing, and normalizing the punctuation-only string "!?" yields the
empty string with zero lower-word count. -/
theorem normalize_roundtrip_witness :
    normalizeLower (joinSp [['a', 'B'], ['c', '3']])
      = lowerList (joinSp [['a', 'B'], ['c', '3']])
    ∧ (normalizeLower ['!', '?'] = []
       ∧ (pySplit (normalizeLower ['!', '?'])).length = 0) :=
  ⟨normalize_roundtrip.1 [['a', 'B'], ['c', '3']] (by decide),
   normalize_roundtrip.2 ['!', '?'] (by decide)⟩

end Humumls
